import Mathlib

/-!
# Verification of the py-enumerable lazy sequence engine

Shallow embedding of `src/py_linq/py_linq.py` (the `Enumerable` class and its
operator subclasses).  Python values that may be `None` are modelled as
`Option Int` (`none` is Python `None`); fallible operations return
`Except PyError`.  Machine-level details that the claims do not touch
(arbitrary Python objects, string hashing) are modelled at the granularity the
code actually uses and each such modelling decision is recorded in the doc
comment of the definition concerned.
-/

namespace PyLinq

/-- Error kinds raised by the code.  `indexError` models Python `IndexError`
(raised by `__getitem__` / `element_at`), `noElementsError` models the
library's `NoElementsError` exception (raised by `min`/`max`/`avg`/`median`). -/
inductive PyError where
  | indexError : PyError
  | noElementsError : PyError
deriving DecidableEq, Repr

/-- A Python value as the claims need it: either `None` (`none`) or an opaque
element, modelled as an integer. -/
abbrev PyV := Option Int

/-- `Enumerable.__getitem__` for `n ≥ 0` (the claims only exercise
non-negative indices, hence `n : Nat`; for `n < 0` the code raises
`IndexError` before doing anything else).  The code returns `None` when the
sequence is empty, otherwise scans `enumerate(self)` keeping the element whose
index equals `n`, so an index beyond the end leaves the initial `result = None`
in place and the `None` value is returned, not an error. -/
def getitemE (l : List PyV) (n : Nat) : Except PyError PyV :=
  if l.length = 0 then Except.ok none else Except.ok (l.getD n none)

/-- `Enumerable.element_at`: calls `__getitem__` and raises `IndexError`
whenever the returned value is `None` — whether because the index was out of
range or because the element itself was `None`. -/
def elementAtE (l : List PyV) (n : Nat) : Except PyError PyV :=
  match getitemE l n with
  | Except.error e => Except.error e
  | Except.ok none => Except.error PyError.indexError
  | Except.ok (some v) => Except.ok (some v)

/-- `Enumerable.element_at_or_default`: converts `IndexError` into `None`. -/
def elementAtOrDefaultE (l : List PyV) (n : Nat) : Except PyError PyV :=
  match elementAtE l n with
  | Except.error PyError.indexError => Except.ok none
  | r => r

/-- `Enumerable.first` with no predicate: `element_at(0)`. -/
def firstE (l : List PyV) : Except PyError PyV :=
  elementAtE l 0

/-- `Enumerable.first_or_default` with no predicate: `element_at_or_default(0)`. -/
def firstOrDefaultE (l : List PyV) : Except PyError PyV :=
  elementAtOrDefaultE l 0

/-- `Enumerable.any` with no predicate: `self.first_or_default() is not None`. -/
def anyE (l : List PyV) : Bool :=
  match firstOrDefaultE l with
  | Except.ok (some _) => true
  | _ => false

/-- `Enumerable.aggregate(func, seed)`.  The code takes
`result = seed if seed is not None else self.first()` and then folds `func`
over the elements, skipping the element at position 0 exactly when no seed was
given.  `self.first()` raises out of `aggregate` when the sequence is empty. -/
def aggregateE (f : PyV → PyV → PyV) (seed : PyV) (l : List PyV) :
    Except PyError PyV :=
  match seed with
  | some s => Except.ok (l.foldl f (some s))
  | none =>
    match firstE l with
    | Except.error e => Except.error e
    | Except.ok v => Except.ok ((l.drop 1).foldl f v)

/-! ## The shared cyclic cursor (`Enumerable._cycle`, `Enumerable.__iter__`)

`Enumerable.__init__` stores `self._cycle = itertools.cycle(self._data)`, a
single mutable cursor over the data repeated forever, and
`Enumerable.__iter__` reads `yield next(self._cycle)` exactly `len(self)`
times.  The cursor is one shared cell per node: every live traversal of the
node pulls from the same cursor. -/

/-- One pull of `next(self._cycle)` when the cursor is at absolute position
`pos`: `itertools.cycle` over a finite list yields element `pos % len`. -/
def cycleGet (l : List Int) (pos : Nat) : Int :=
  l.getD (pos % l.length) 0

/-- The elements observed by a traversal (`__iter__`) that performs `count`
pulls starting with the shared cursor at `start`. -/
def iterSeq (l : List Int) (start count : Nat) : List Int :=
  (List.range count).map (fun k => cycleGet l (start + k))

/-- Two traversals `A` and `B` of the same node live at the same time, both
pulling the single shared `_cycle` cursor; `sched` says whose `next` runs at
each step (`true` = A).  Returns (A's observations, B's observations, final
cursor position). -/
def interleavedRun (l : List Int) (sched : List Bool) :
    List Int × List Int × Nat :=
  sched.foldl
    (fun st turn =>
      let e := cycleGet l st.2.2
      if turn then (st.1 ++ [e], st.2.1, st.2.2 + 1)
      else (st.1, st.2.1 ++ [e], st.2.2 + 1))
    ([], [], 0)

/-! ## `SkipWhileEnumerable.__iter__` and `TakeWhileEnumerable.__iter__`

Both generators pull from a fresh `itertools.cycle(self.data)` — a cursor that
wraps around — and count pulls against `len(self.data)`.  They are modelled
with explicit fuel because the loops as written need not terminate (the
wrap-around lets the predicate keep succeeding forever); `none` means the
generator was still looping when the fuel ran out, for every fuel. -/

/-- The `while skip:` loop of `SkipWhileEnumerable.__iter__`: entered with the
current element `e` (already pulled), cursor at `pos` and counter `i`; the body
is `e = next(self._cycle); skip = self.predicate(e); if skip: i += 1`.
Returns `(e, pos, i)` at loop exit. -/
def swSkipLoop (p : Int → Bool) (l : List Int) :
    Nat → Int → Nat → Nat → Option (Int × Nat × Nat)
  | 0, _, _, _ => none
  | fuel + 1, e, pos, i =>
    if p e then
      let e2 := cycleGet l pos
      if p e2 then swSkipLoop p l fuel e2 (pos + 1) (i + 1)
      else some (e2, pos + 1, i)
    else some (e, pos, i)

/-- The `while i < len(self.data):` loop of `SkipWhileEnumerable.__iter__`
(`yield e; i += 1; e = next(self._cycle)`), with `k = len(self.data) - i`
remaining iterations. -/
def swYieldLoop (l : List Int) : Nat → Int → Nat → List Int
  | 0, _, _ => []
  | k + 1, e, pos => e :: swYieldLoop l k (cycleGet l pos) (pos + 1)

/-- `SkipWhileEnumerable.__iter__` run to completion with the given fuel for
the skip loop.  On empty data the first `next` raises `StopIteration`, `e`
becomes `None`, `skip` is `False` and the yield loop's bound `i < 0` fails
immediately, so the generator yields nothing. -/
def skipWhileE (p : Int → Bool) (l : List Int) (fuel : Nat) :
    Option (List Int) :=
  if l.length = 0 then some []
  else
    match swSkipLoop p l fuel (cycleGet l 0) 1 1 with
    | none => none
    | some (e, pos, i) => some (swYieldLoop l (l.length - i) e pos)

/-- The `while take:` loop of `TakeWhileEnumerable.__iter__`
(`yield e; e = next(self._cycle); take = self.predicate(e); i += 1`),
accumulating the yielded elements.  The trailing drain loop performs no
yields, so it is not part of the observable output. -/
def twTakeLoop (p : Int → Bool) (l : List Int) :
    Nat → Int → Nat → List Int → Option (List Int)
  | 0, _, _, _ => none
  | fuel + 1, e, pos, acc =>
    if p e then twTakeLoop p l fuel (cycleGet l pos) (pos + 1) (acc ++ [e])
    else some acc

/-- `TakeWhileEnumerable.__iter__` run to completion with the given fuel. -/
def takeWhileE (p : Int → Bool) (l : List Int) (fuel : Nat) :
    Option (List Int) :=
  if l.length = 0 then some []
  else twTakeLoop p l fuel (cycleGet l 0) 1 []

/-- `Enumerable.min` with the identity projection: raises `NoElementsError`
when `self.any()` is false, else returns the minimum.  The minimum computation
is modelled for sequences of non-`None` integers (Python `min` over such
elements); the guard — the part the claims are about — is modelled exactly. -/
def minE (l : List PyV) : Except PyError PyV :=
  if anyE l then
    match l.filterMap (fun x => x) with
    | [] => Except.ok none
    | x :: xs => Except.ok (some (xs.foldl min x))
  else Except.error PyError.noElementsError

/-! ## `GroupJoinEnumerable.__iter__`

For each outer element `o` the generator runs `ok = self.outer_key(o)` and
yields `result_selector((o, Grouping(Key({'id': ok}),
self.inner_enumerable.where(lambda i: self.inner_key(i) == ok))))`.  The
`where` node is lazy and its predicate closes over the generator-local
variable `ok` — a single cell rebound on every outer step — so the Grouping's
contents depend on the value that cell holds when the caller finally iterates
the Grouping, not on the value it held when the row was emitted. -/

/-- Contents of the emitted Grouping when it is iterated at a moment when the
shared `ok` cell holds `okNow`. -/
def gjGroupThunk (inner : List Int) (ikf : Int → Int) (okNow : Int) :
    List Int :=
  inner.filter (fun i => ikf i == okNow)

/-- `group_join` rows when the caller iterates each Grouping immediately,
while the cell still holds `outer_key(o)` for its own row. -/
def groupJoinConsumeEager (outer inner : List Int) (okf ikf : Int → Int) :
    List (Int × List Int) :=
  outer.map (fun o => (o, gjGroupThunk inner ikf (okf o)))

/-- `group_join` rows when the caller first materializes all rows (e.g. via
`to_list()`) and iterates the Groupings afterwards: the outer loop has
finished, the shared `ok` cell holds the key of the last outer element, and
every Grouping filters the inner sequence with that key. -/
def groupJoinConsumeDeferred (outer inner : List Int) (okf ikf : Int → Int) :
    List (Int × List Int) :=
  outer.map (fun o => (o, gjGroupThunk inner ikf (okf (outer.getLastD 0))))

/-! ## `ReversedEnumerable` over operator nodes

`ReversedEnumerable.__init__` stores `itertools.cycle(reversed(self.data))`.
`reversed` uses the sequence protocol — `self.data.__len__` and
`self.data.__getitem__` — and the node inherits `Enumerable.__iter__` and
`Enumerable.__len__`.  The inherited `__len__` counts `enumerate(self._data)`,
i.e. the number of elements the UPSTREAM node yields, which for skip/take
nodes differs from the number of elements the node itself yields, and
`__getitem__` returns Python `None` for indices past the yielded elements. -/

/-- A pipeline node: a base collection, `skip(n)`, `take(n)` or `reverse()`. -/
inductive SNode where
  | base : List PyV → SNode
  | skipN : Nat → SNode → SNode
  | takeN : Nat → SNode → SNode
  | revN : SNode → SNode

/-- Assemble the elements yielded by `ReversedEnumerable.__iter__` from
`iu` (the elements the upstream node yields — `enumerate(self._data)`, which
is also the bound `len(self)` of the inherited `__iter__`) and `pl` (the
upstream's `__len__`, used by the `reversed` sequence protocol).  The protocol
reads `upstream[pl-1], ..., upstream[0]` where `upstream[k]` is the inherited
`__getitem__`: `None` when the length is 0 or the scan finds no element at
index `k`, else the element at `k`.  The inherited `__iter__` then pulls
`len(self)` elements off the cycle of that list, wrapping around (an empty
cycle raises `StopIteration`, ending the generator at once). -/
def revAssemble (iu : List PyV) (pl : Nat) : List PyV :=
  let proto := (List.range pl).reverse.map
    (fun k => if pl = 0 then none else iu.getD k none)
  if proto.length = 0 then []
  else (List.range iu.length).map (fun k => proto.getD (k % proto.length) none)

/-- Draining `reverse()` applied to a node `r` that is itself a
`ReversedEnumerable` whose `_cycle` runs over the list `c` (the `reversed`
protocol of `r`'s upstream) and whose traversals yield `t` elements each
(`len(r)` = `t`, the count of elements `r`'s upstream yields), while `c` may
be longer than `t` — so every full pass over `r` moves `r`'s one persistent
cycle cursor forward by `t` and passes need not start at the front of `c`.
The outer node's inherited `__iter__` evaluates `len(self)` — a full pass
over `r` — before every pull, and each pull consumes the next entry of the
lazy `reversed(r)` protocol: `r[k]` for `k = t-1, ..., 0`, where
`__getitem__` performs one more full pass over `r` and keeps the element the
pass produces at index `k`.  The argument after `t` is `r`'s cursor; the last
argument counts the pulls (protocol entries) still to evaluate. -/
def revRevGo (c : List PyV) (t : Nat) : Nat → Nat → List PyV
  | _, 0 => []
  | pos, k + 1 =>
    let pos1 := pos + t
    (((List.range t).map
        (fun j => c.getD ((pos1 + j) % c.length) none)).getD k none) ::
      revRevGo c t (pos1 + t) k

/-- The elements one `to_list()` drain of a freshly constructed node
observes.  `skip`/`take` yield the upstream elements with index `≥ n` / `< n`
(their iterations pull the sub-cursors whole cycles at a time, so those stay
aligned); a single `reverse` is `revAssemble` of the upstream's yielded
elements and the upstream's `__len__` (the count of ITS upstream's yields,
per the inherited `Enumerable.__len__`) — its first traversal starts at its
cycle's front; `reverse` of `reverse` threads the inner reverse's persistent
cycle cursor through the drain with `revRevGo`, because when the inner
reverse yields fewer elements per pass than its cycle holds the cursor
drifts between passes.  The model tracks this drift one reverse level deep —
the shapes the claim exercises. -/
def nodeIter : SNode → List PyV
  | SNode.base l => l
  | SNode.skipN n u => (nodeIter u).drop n
  | SNode.takeN n u => (nodeIter u).take n
  | SNode.revN (SNode.base l) => revAssemble l l.length
  | SNode.revN (SNode.skipN n v) =>
      revAssemble ((nodeIter v).drop n) (nodeIter v).length
  | SNode.revN (SNode.takeN n v) =>
      revAssemble ((nodeIter v).take n) (nodeIter v).length
  | SNode.revN (SNode.revN v) =>
      let iv := nodeIter v
      let plv := match v with
        | SNode.base l2 => l2.length
        | SNode.skipN _ w => (nodeIter w).length
        | SNode.takeN _ w => (nodeIter w).length
        | SNode.revN w => (nodeIter w).length
      let c := (List.range plv).reverse.map
        (fun k => if plv = 0 then none else iv.getD k none)
      revRevGo c iv.length 0 iv.length

/-! ## Key hashing for `union` / `group_by`

`UnionEnumerable._load_data` deduplicates elements by
`key_hash = hash(json.dumps(key))` and `GroupedEnumerable._create_key_hash`
buckets by exactly the same expression, so both operators share one key
criterion: equality of `hash(json.dumps(·))` of the projected key.  Projected
keys are modelled as scalars or flat tuple- or list-shaped composites of scalars
— the shapes the claims exercise.  `jsonDumps` models `json.dumps` with its
default separators (arrays as `[a, b]`; Python tuples serialize as JSON
arrays; booleans as `true`/`false`; strings quoted — escape sequences inside
strings are out of scope).  `pyEq` models Python `==` (numeric equality
identifies `True` with 1 and `False` with 0; a tuple never equals a list).
Python's string `hash` is modelled as injective, so two keys collide exactly
when their dumps are byte-identical; an accidental hash collision between
distinct dumps is the only behavior this abstracts away. -/

/-- A scalar Python key component. -/
inductive PyScalar where
  | intV : Int → PyScalar
  | boolV : Bool → PyScalar
  | strV : String → PyScalar
deriving DecidableEq, Repr

/-- A projected key value: a scalar, or a list/tuple of scalars. -/
inductive PyVal where
  | scalar : PyScalar → PyVal
  | listV : List PyScalar → PyVal
  | tupV : List PyScalar → PyVal
deriving DecidableEq, Repr

/-- `json.dumps` of a scalar. -/
def jsonDumpsScalar : PyScalar → String
  | PyScalar.intV n => toString n
  | PyScalar.boolV b => if b then "true" else "false"
  | PyScalar.strV s => "\"" ++ s ++ "\""

/-- The comma-separated items of a JSON array (default separator `", "`). -/
def jsonItems : List PyScalar → String
  | [] => ""
  | [x] => jsonDumpsScalar x
  | x :: y :: xs => jsonDumpsScalar x ++ ", " ++ jsonItems (y :: xs)

/-- `json.dumps` of a projected key.  Lists and tuples both serialize as JSON
arrays — `json.dumps((1, 2)) == json.dumps([1, 2]) == "[1, 2]"`. -/
def jsonDumps : PyVal → String
  | PyVal.scalar s => jsonDumpsScalar s
  | PyVal.listV xs => "[" ++ jsonItems xs ++ "]"
  | PyVal.tupV xs => "[" ++ jsonItems xs ++ "]"

/-- Python `==` on scalars: `True == 1` and `False == 0` hold. -/
def pyEqScalar : PyScalar → PyScalar → Bool
  | PyScalar.intV a, PyScalar.intV b => a == b
  | PyScalar.intV a, PyScalar.boolV b => a == (if b then 1 else 0)
  | PyScalar.boolV a, PyScalar.intV b => (if a then (1 : Int) else 0) == b
  | PyScalar.boolV a, PyScalar.boolV b => a == b
  | PyScalar.strV a, PyScalar.strV b => a == b
  | _, _ => false

/-- Python `==` on sequences of scalars, elementwise. -/
def pyEqList : List PyScalar → List PyScalar → Bool
  | [], [] => true
  | x :: xs, y :: ys => pyEqScalar x y && pyEqList xs ys
  | _, _ => false

/-- Python `==` on projected keys: structural equality; a tuple never equals
a list, whatever the items. -/
def pyEq : PyVal → PyVal → Bool
  | PyVal.scalar a, PyVal.scalar b => pyEqScalar a b
  | PyVal.listV a, PyVal.listV b => pyEqList a b
  | PyVal.tupV a, PyVal.tupV b => pyEqList a b
  | _, _ => false

/-- `UnionEnumerable._load_data` over the already-concatenated input
`self ++ other`: walk the elements, keep the element if the hash of the dump
of its projected key was not seen before (`if key_hash not in self.union`),
record the hash.  Iterating the node yields the kept elements in insertion
order (the dict preserves it). -/
def unionLoadAux {α : Type} (key : α → PyVal) :
    List α → List String → List α
  | [], _ => []
  | x :: xs, seen =>
    if jsonDumps (key x) ∈ seen then unionLoadAux key xs seen
    else x :: unionLoadAux key xs (jsonDumps (key x) :: seen)

/-- The elements `union` yields, given the concatenation of the two sources. -/
def unionLoad {α : Type} (key : α → PyVal) (l : List α) : List α :=
  unionLoadAux key l []

/-- The `else` arm of `GroupedEnumerable._load_data`:
`self.grouping[kv_hash].data.append(d)` — append `d` to the bucket stored
under the hash `h` (the dict holds one bucket per hash). -/
def bucketAppend {α : Type} (h : String) (d : α) :
    List (String × List α) → List (String × List α)
  | [] => []
  | (k, xs) :: rest =>
    if k = h then (k, xs ++ [d]) :: rest
    else (k, xs) :: bucketAppend h d rest

/-- `GroupedEnumerable._load_data`: for each element `d`, compute
`kv_hash = self._create_key_hash(self.key(d)) = hash(json.dumps(key(d)))`;
start a new bucket if the hash is new (`if kv_hash not in self.grouping`,
inserted at the end — the dict preserves insertion order), else append `d` to
its bucket.  The `Key`/`key_names` payload of each `Grouping` is not modelled;
the buckets and their hash keys are. -/
def groupLoadAux {α : Type} (key : α → PyVal) :
    List α → List (String × List α) → List (String × List α)
  | [], acc => acc
  | d :: ds, acc =>
    if jsonDumps (key d) ∈ acc.map Prod.fst then
      groupLoadAux key ds (bucketAppend (jsonDumps (key d)) d acc)
    else groupLoadAux key ds (acc ++ [(jsonDumps (key d), [d])])

/-- The buckets `group_by` builds over its source. -/
def groupLoad {α : Type} (key : α → PyVal) (l : List α) :
    List (String × List α) :=
  groupLoadAux key l []

/-! ## `SortedEnumerable` — ordering directives and the multi-key sort

`SortedEnumerable.__init__` runs
`for o in reversed(self._key_funcs): self._data = sorted(self._data,
key=o.key, reverse=o.descending)`.  Python's `sorted` is a stable sort in
both directions (with `reverse=True` ties also keep input order); a stable
sort's output is extensionally determined by the comparison, so it is
modelled by a stable insertion sort. -/

/-- An `OrderingDirection`: a key projection together with a direction
(`desc = true` models `reverse=True`).  Keys land in `Int` (any totally
ordered projection target). -/
structure Dir (α : Type) where
  key : α → Int
  desc : Bool

/-- The boolean "should sort no later than" relation of one directive, as
Python's stable `sorted(key=o.key, reverse=o.descending)` realizes it. -/
def dirLeB {α : Type} (d : Dir α) (a b : α) : Bool :=
  if d.desc then decide (d.key b ≤ d.key a) else decide (d.key a ≤ d.key b)

/-- Stable insertion of `a` into `l`: `a` lands in front of the first element
it compares `le` to, so on ties the earlier-input element stays first. -/
def insertS {α : Type} (le : α → α → Bool) (a : α) : List α → List α
  | [] => [a]
  | b :: l => if le a b then a :: b :: l else b :: insertS le a l

/-- Stable insertion sort (the extensional behavior of Python's `sorted`
under the comparison `le`). -/
def insSort {α : Type} (le : α → α → Bool) : List α → List α
  | [] => []
  | a :: l => insertS le a (insSort le l)

/-- The `__init__` loop: the least significant directive is applied first,
the primary directive (head of the list) last. -/
def multiSort {α : Type} : List (Dir α) → List α → List α
  | [], l => l
  | d :: ds, l => insSort (dirLeB d) (multiSort ds l)

/-- One refinement step of the output order: `a` before `b` is justified
either strictly by this directive or by a tie at this directive plus the
rest-relation `R`. -/
def stepRel {α : Type} (le : α → α → Bool) (R : α → α → Prop) (a b : α) :
    Prop :=
  (le a b = true ∧ le b a = false) ∨ (le a b = true ∧ le b a = true ∧ R a b)

/-- The lexicographic order of a directive chain, refined by a base relation
on full ties. -/
def lexRel {α : Type} : List (Dir α) → (α → α → Prop) → α → α → Prop
  | [], R => R
  | d :: ds, R => stepRel (dirLeB d) (lexRel ds R)

/-- All directives of the chain tie on `a`, `b`. -/
def allTie {α : Type} (ds : List (Dir α)) (a b : α) : Prop :=
  ∀ d ∈ ds, dirLeB d a b = true ∧ dirLeB d b a = true

/-- `SortedEnumerable.then_by` / `then_by_descending` evaluate each extension
over the receiver's already-sorted `_data` with the grown key list; the chain
`order_by(d0).then_by(d1)...` therefore computes this fold. -/
def chainGo {α : Type} : List (Dir α) → List α → List (Dir α) → List α
  | _, cur, [] => cur
  | kf, cur, d :: ds => chainGo (kf ++ [d]) (multiSort (kf ++ [d]) cur) ds

/-- `order_by(d0)` followed by one `then_by`-style extension per directive in
`ds`, exactly as the code evaluates the chain. -/
def chainSort {α : Type} (d0 : Dir α) (ds : List (Dir α)) (l : List α) :
    List α :=
  chainGo [d0] (multiSort [d0] l) ds

/-- A directive on position-tagged elements that ignores the tag (used to
state stability: tags are the original positions). -/
def liftDir {α : Type} (d : Dir α) : Dir (Nat × α) :=
  Dir.mk (fun p => d.key p.2) d.desc

/-- Original-position order on tagged elements. -/
def idxLt {α : Type} (p q : Nat × α) : Prop :=
  p.1 < q.1

/-- The state of a `SortedEnumerable` node: its `_key_funcs` list and its
already-sorted `_data`. -/
structure SortedState (α : Type) where
  keyFuncs : List (Dir α)
  data : List α

/-- `SortedEnumerable.__init__`: keep the key list, sort the data by the
reversed chain. -/
def mkSorted {α : Type} (kf : List (Dir α)) (l : List α) : SortedState α :=
  SortedState.mk kf (multiSort kf l)

/-- `Enumerable.order_by(key)`. -/
def orderByS {α : Type} (k : α → Int) (l : List α) : SortedState α :=
  mkSorted [Dir.mk k false] l

/-- `SortedEnumerable.then_by(func)`:
`self._key_funcs.append(OrderingDirection(key=func, reverse=False));
return SortedEnumerable(self, self._key_funcs)`.  The `append` mutates the
receiver's `_key_funcs`; the result models the pair (the returned new node,
the receiver as it is after the call). -/
def thenByS {α : Type} (s : SortedState α) (k : α → Int) :
    SortedState α × SortedState α :=
  let kf := s.keyFuncs ++ [Dir.mk k false]
  (mkSorted kf s.data, SortedState.mk kf s.data)

/-! ## `Enumerable.median` -/

/-- The dynamic type of the value `median` returns: the odd-length branch
returns the central projected element unconverted, the even-length branch a
Python float.  Floats are modelled as rationals; for the integer inputs of
the claims `float(x)` and one addition and halving are exact, so the model
is faithful there. -/
inductive MedianResult where
  | intVal : Int → MedianResult
  | floatVal : ℚ → MedianResult
deriving DecidableEq, Repr

/-- `Enumerable.median(func)`: raise `NoElementsError` on an empty source
(`not self.any()`, which for non-`None` elements is exactly emptiness), else
`result = self.order_by(func).select(func).to_list()`, `i = len(result) // 2`,
returning `result[i]` for odd length and
`(float(result[i-1]) + float(result[i])) / 2` for even length. -/
def medianE {α : Type} (f : α → Int) (l : List α) : Except PyError MedianResult :=
  if l.isEmpty then Except.error PyError.noElementsError
  else
    let result := (multiSort [Dir.mk f false] l).map f
    let i := result.length / 2
    if result.length % 2 = 1 then
      Except.ok (MedianResult.intVal (result.getD i 0))
    else
      Except.ok (MedianResult.floatVal
        ((((result.getD (i - 1) 0 : Int) : ℚ) + ((result.getD i 0 : Int) : ℚ)) / 2))

/-! ## Helper lemmas -/

/-- Each directive's relation is total. -/
theorem dirLeB_total {α : Type} (d : Dir α) (a b : α) :
    dirLeB d a b = true ∨ dirLeB d b a = true := by
  by_cases hd : d.desc <;> simp [dirLeB, hd] <;> omega

/-- Each directive's relation is transitive. -/
theorem dirLeB_trans {α : Type} (d : Dir α) (a b c : α)
    (h1 : dirLeB d a b = true) (h2 : dirLeB d b c = true) :
    dirLeB d a c = true := by
  by_cases hd : d.desc <;> simp [dirLeB, hd] at h1 h2 ⊢ <;> omega

theorem perm_insertS {α : Type} (le : α → α → Bool) (a : α) (l : List α) :
    (insertS le a l).Perm (a :: l) := by
  induction l with
  | nil => exact List.Perm.refl _
  | cons b t ih =>
    unfold insertS
    by_cases h : le a b = true
    · simp only [h, if_true]
      exact List.Perm.refl _
    · simp only [h, if_false]
      exact (ih.cons b).trans (List.Perm.swap a b t)

theorem mem_insertS {α : Type} {le : α → α → Bool} {a x : α} {l : List α} :
    x ∈ insertS le a l ↔ x = a ∨ x ∈ l := by
  rw [(perm_insertS le a l).mem_iff]
  simp

theorem perm_insSort {α : Type} (le : α → α → Bool) (l : List α) :
    (insSort le l).Perm l := by
  induction l with
  | nil => exact List.Perm.refl _
  | cons a t ih => exact (perm_insertS le a _).trans (ih.cons a)

/-- Stability of one insertion: inserting `a` — an element that precedes
everything in `l` in the input — into a list ordered by `stepRel le R` keeps
the list ordered by `stepRel le R`, provided `R a b` holds for the elements
`b` of `l` (they came later in the input). -/
theorem pairwise_insertS {α : Type} (le : α → α → Bool) (R : α → α → Prop)
    (htotal : ∀ a b, le a b = true ∨ le b a = true)
    (htrans : ∀ a b c, le a b = true → le b c = true → le a c = true)
    (a : α) (l : List α) (hl : l.Pairwise (stepRel le R))
    (ha : ∀ b ∈ l, R a b) :
    (insertS le a l).Pairwise (stepRel le R) := by
  induction l with
  | nil => simp [insertS]
  | cons b t ih =>
    rcases List.pairwise_cons.mp hl with ⟨hb, ht⟩
    unfold insertS
    by_cases hab : le a b = true
    · simp only [hab, if_true]
      refine List.pairwise_cons.mpr ⟨?_, hl⟩
      intro x hx
      rcases List.mem_cons.mp hx with rfl | hx
      · by_cases hba : le x a = true
        · exact Or.inr ⟨hab, hba, ha x (List.mem_cons_self _ _)⟩
        · exact Or.inl ⟨hab, Bool.not_eq_true _ |>.mp hba⟩
      · have hbx : le b x = true := by
          rcases hb x hx with ⟨h1, _⟩ | ⟨h1, _, _⟩ <;> exact h1
        have hax : le a x = true := htrans a b x hab hbx
        by_cases hxa : le x a = true
        · exact Or.inr ⟨hax, hxa, ha x (List.mem_cons_of_mem _ hx)⟩
        · exact Or.inl ⟨hax, Bool.not_eq_true _ |>.mp hxa⟩
    · simp only [hab, if_false]
      refine List.pairwise_cons.mpr
        ⟨?_, ih ht (fun y hy => ha y (List.mem_cons_of_mem _ hy))⟩
      intro x hx
      rcases mem_insertS.mp hx with rfl | hx
      · have hba : le b x = true := (htotal x b).resolve_left hab
        exact Or.inl ⟨hba, Bool.not_eq_true _ |>.mp hab⟩
      · exact hb x hx

/-- Stability of the sort: if the input is ordered by `R`, the output is
ordered by `stepRel le R` — strictly by `le`, and by `R` (the input order) on
`le`-ties. -/
theorem pairwise_insSort {α : Type} (le : α → α → Bool) (R : α → α → Prop)
    (htotal : ∀ a b, le a b = true ∨ le b a = true)
    (htrans : ∀ a b c, le a b = true → le b c = true → le a c = true)
    (l : List α) (hl : l.Pairwise R) :
    (insSort le l).Pairwise (stepRel le R) := by
  induction l with
  | nil => simp [insSort]
  | cons a t ih =>
    rcases List.pairwise_cons.mp hl with ⟨hat, ht⟩
    exact pairwise_insertS le R htotal htrans a _ (ih ht)
      (fun b hb => hat b ((perm_insSort le t).mem_iff.mp hb))

theorem perm_multiSort {α : Type} (ds : List (Dir α)) (l : List α) :
    (multiSort ds l).Perm l := by
  induction ds with
  | nil => exact List.Perm.refl _
  | cons d dt ih => exact (perm_insSort (dirLeB d) _).trans ih

/-- The `__init__` loop refines the input order `R` into the lexicographic
order of the directive chain with `R` deciding full ties. -/
theorem pairwise_multiSort {α : Type} (ds : List (Dir α)) (R : α → α → Prop)
    (l : List α) (hl : l.Pairwise R) :
    (multiSort ds l).Pairwise (lexRel ds R) := by
  induction ds with
  | nil => exact hl
  | cons d dt ih =>
    exact pairwise_insSort (dirLeB d) _ (dirLeB_total d) (dirLeB_trans d) _ ih

/-- On a full tie of the chain, the lexicographic order collapses to its base
relation. -/
theorem lexRel_of_allTie {α : Type} {ds : List (Dir α)} {R : α → α → Prop}
    {a b : α} (h : allTie ds a b) : lexRel ds R a b ↔ R a b := by
  induction ds with
  | nil => exact Iff.rfl
  | cons d dt ih =>
    have hd := h d (List.mem_cons_self _ _)
    have ht : allTie dt a b := fun e he => h e (List.mem_cons_of_mem _ he)
    simp [lexRel, stepRel, hd.1, hd.2, ih ht]

/-- `lexRel` is monotone in its base relation, where monotonicity is only
needed on full ties of the chain. -/
theorem lexRel_mono_allTie {α : Type} {ds : List (Dir α)}
    {X Y : α → α → Prop} {a b : α}
    (h : allTie ds a b → X a b → Y a b) (hx : lexRel ds X a b) :
    lexRel ds Y a b := by
  induction ds with
  | nil => exact h (fun d hd => absurd hd (List.not_mem_nil d)) hx
  | cons d dt ih =>
    rcases hx with hstrict | ⟨h1, h2, hrest⟩
    · exact Or.inl hstrict
    · refine Or.inr ⟨h1, h2, ih ?_ hrest⟩
      intro hAll hX
      refine h ?_ hX
      intro e he
      rcases List.mem_cons.mp he with rfl | he
      · exact ⟨h1, h2⟩
      · exact hAll e he

/-- Re-sorting data that is already lexicographically ordered by a subchain:
the inner `lexRel kf base` tie-break collapses to `base`, because wherever it
is consulted the outer chain — which contains `kf` — fully ties. -/
theorem lexRel_collapse {α : Type} {E kf : List (Dir α)}
    {base : α → α → Prop} (hsub : ∀ d ∈ kf, d ∈ E) {a b : α}
    (h : lexRel E (lexRel kf base) a b) : lexRel E base a b :=
  lexRel_mono_allTie
    (fun hAll hX => (lexRel_of_allTie (fun d hd => hAll d (hsub d hd))).mp hX)
    h

theorem chainGo_perm {α : Type} :
    ∀ (ds kf : List (Dir α)) (cur : List α), (chainGo kf cur ds).Perm cur := by
  intro ds
  induction ds with
  | nil => intro kf cur; exact List.Perm.refl _
  | cons d dt ih =>
    intro kf cur
    exact (ih (kf ++ [d]) _).trans (perm_multiSort _ _)

/-- Invariant of the `then_by` chain: if the current data is ordered by the
lexicographic order of the directives so far (with base relation `base` on
full ties), it stays so ordered — for the grown chain — after each step. -/
theorem chainGo_pairwise {α : Type} {base : α → α → Prop} :
    ∀ (ds kf : List (Dir α)) (cur : List α),
      cur.Pairwise (lexRel kf base) →
      (chainGo kf cur ds).Pairwise (lexRel (kf ++ ds) base) := by
  intro ds
  induction ds with
  | nil =>
    intro kf cur h
    simpa using h
  | cons d dt ih =>
    intro kf cur h
    have h1 : (multiSort (kf ++ [d]) cur).Pairwise
        (lexRel (kf ++ [d]) (lexRel kf base)) :=
      pairwise_multiSort _ _ _ h
    have h2 : (multiSort (kf ++ [d]) cur).Pairwise (lexRel (kf ++ [d]) base) :=
      h1.imp (fun hab =>
        lexRel_collapse (fun e he => List.mem_append_left _ he) hab)
    have h3 := ih (kf ++ [d]) _ h2
    simpa [List.append_assoc] using h3

theorem insertS_map_comm {α β : Type} (f : β → α) (le : α → α → Bool)
    (a : β) (l : List β) :
    (insertS (fun x y => le (f x) (f y)) a l).map f =
      insertS le (f a) (l.map f) := by
  induction l with
  | nil => rfl
  | cons b t ih =>
    simp only [insertS, List.map_cons]
    by_cases h : le (f a) (f b) = true <;> simp [h, ih]

theorem insSort_map_comm {α β : Type} (f : β → α) (le : α → α → Bool)
    (l : List β) :
    (insSort (fun x y => le (f x) (f y)) l).map f = insSort le (l.map f) := by
  induction l with
  | nil => rfl
  | cons a t ih =>
    simp only [insSort, List.map_cons]
    rw [insertS_map_comm, ih]

theorem dirLeB_lift {α : Type} (d : Dir α) :
    dirLeB (liftDir d) = fun (x y : Nat × α) => dirLeB d x.2 y.2 :=
  rfl

/-- Sorting tagged elements by tag-blind directives and then dropping the
tags is the untagged sort. -/
theorem multiSort_map_snd {α : Type} (ds : List (Dir α))
    (l : List (Nat × α)) :
    (multiSort (ds.map liftDir) l).map Prod.snd =
      multiSort ds (l.map Prod.snd) := by
  induction ds with
  | nil => rfl
  | cons d dt ih =>
    show (insSort (dirLeB (liftDir d)) (multiSort (dt.map liftDir) l)).map
        Prod.snd = insSort (dirLeB d) (multiSort dt (l.map Prod.snd))
    rw [dirLeB_lift d, insSort_map_comm Prod.snd (dirLeB d), ih]

theorem chainGo_map_snd {α : Type} :
    ∀ (ds kf : List (Dir α)) (cur : List (Nat × α)),
      (chainGo (kf.map liftDir) cur (ds.map liftDir)).map Prod.snd =
        chainGo kf (cur.map Prod.snd) ds := by
  intro ds
  induction ds with
  | nil => intro kf cur; rfl
  | cons d dt ih =>
    intro kf cur
    show (chainGo (kf.map liftDir ++ [liftDir d])
        (multiSort (kf.map liftDir ++ [liftDir d]) cur)
        (dt.map liftDir)).map Prod.snd =
      chainGo (kf ++ [d]) (multiSort (kf ++ [d]) (cur.map Prod.snd)) dt
    have h1 : kf.map liftDir ++ [liftDir d] = (kf ++ [d]).map liftDir := by
      simp
    rw [h1, ih (kf ++ [d]) (multiSort ((kf ++ [d]).map liftDir) cur),
      multiSort_map_snd]

/-- Position tags are strictly increasing along `l.enum`. -/
theorem pairwise_enum_idxLt {α : Type} (l : List α) :
    l.enum.Pairwise idxLt := by
  rw [List.pairwise_iff_getElem]
  intro i j hi hj hij
  simp only [idxLt, List.getElem_enum]
  simpa using hij

/-- No element kept by `_load_data` has a key dump that was already marked
seen on entry. -/
theorem unionLoadAux_not_seen {α : Type} (key : α → PyVal) :
    ∀ (l : List α) (seen : List String) (y : α),
      y ∈ unionLoadAux key l seen → jsonDumps (key y) ∉ seen := by
  intro l
  induction l with
  | nil =>
    intro seen y hy
    simp [unionLoadAux] at hy
  | cons x xs ih =>
    intro seen y hy
    by_cases hx : jsonDumps (key x) ∈ seen
    · exact ih seen y (by simpa [unionLoadAux, hx] using hy)
    · rw [unionLoadAux, if_neg hx] at hy
      rcases List.mem_cons.mp hy with rfl | hy
      · exact hx
      · have h2 := ih (jsonDumps (key x) :: seen) y hy
        exact fun hc => h2 (List.mem_cons_of_mem _ hc)

/-- The elements kept by `_load_data` carry pairwise distinct key dumps. -/
theorem unionLoadAux_pairwise {α : Type} (key : α → PyVal) :
    ∀ (l : List α) (seen : List String),
      (unionLoadAux key l seen).Pairwise
        (fun a b => jsonDumps (key a) ≠ jsonDumps (key b)) := by
  intro l
  induction l with
  | nil => intro seen; simp [unionLoadAux]
  | cons x xs ih =>
    intro seen
    by_cases hx : jsonDumps (key x) ∈ seen
    · simpa [unionLoadAux, hx] using ih seen
    · rw [unionLoadAux, if_neg hx]
      refine List.pairwise_cons.mpr ⟨?_, ih _⟩
      intro y hy he
      exact unionLoadAux_not_seen key xs _ y hy
        (he ▸ List.mem_cons_self _ _)

/-- Every element of the (position-tagged, tag-increasing) input has its key
dump represented by a kept element occurring NO LATER than it: either the
dump was already seen on entry, or some kept element carries the same dump
with a position tag `≤` the element's own.  Run with `seen = []` this pins
the kept representative of each dump as its first occurrence. -/
theorem unionLoadAux_covers_first {α : Type} (key : α → PyVal) :
    ∀ (l : List (Nat × α)) (seen : List String), l.Pairwise idxLt →
      ∀ p ∈ l, jsonDumps (key p.2) ∈ seen ∨
        ∃ q ∈ unionLoadAux (fun r => key r.2) l seen,
          jsonDumps (key q.2) = jsonDumps (key p.2) ∧ q.1 ≤ p.1 := by
  intro l
  induction l with
  | nil =>
    intro seen hpw p hp
    exact absurd hp (List.not_mem_nil p)
  | cons z zs ih =>
    intro seen hpw p hp
    rcases List.pairwise_cons.mp hpw with ⟨hzlt, hzs⟩
    by_cases hz : jsonDumps (key z.2) ∈ seen
    · rw [unionLoadAux, if_pos hz]
      rcases List.mem_cons.mp hp with rfl | hp
      · exact Or.inl hz
      · exact ih seen hzs p hp
    · rw [unionLoadAux, if_neg hz]
      rcases List.mem_cons.mp hp with rfl | hp
      · exact Or.inr ⟨p, List.mem_cons_self _ _, rfl, Nat.le_refl _⟩
      · rcases ih (jsonDumps (key z.2) :: seen) hzs p hp with hseen | ⟨q, hq, hd, hle⟩
        · rcases List.mem_cons.mp hseen with he | hseen
          · exact Or.inr ⟨z, List.mem_cons_self _ _, he.symm,
              Nat.le_of_lt (hzlt p hp)⟩
          · exact Or.inl hseen
        · exact Or.inr ⟨q, List.mem_cons_of_mem _ hq, hd, hle⟩

/-- Dropping the position tags commutes with `_load_data`: the dedup decision
depends only on the key dump, which ignores the tag. -/
theorem unionLoadAux_map_snd {α : Type} (key : α → PyVal) :
    ∀ (l : List (Nat × α)) (seen : List String),
      (unionLoadAux (fun r => key r.2) l seen).map Prod.snd =
        unionLoadAux key (l.map Prod.snd) seen := by
  intro l
  induction l with
  | nil => intro seen; rfl
  | cons x xs ih =>
    intro seen
    by_cases h : jsonDumps (key x.2) ∈ seen <;>
      simp [unionLoadAux, h, ih]

/-- `bucketAppend` never changes the set of bucket keys. -/
theorem bucketAppend_keys {α : Type} (h : String) (d : α) :
    ∀ acc : List (String × List α),
      (bucketAppend h d acc).map Prod.fst = acc.map Prod.fst := by
  intro acc
  induction acc with
  | nil => rfl
  | cons g rest ih =>
    rcases g with ⟨k, xs⟩
    by_cases hk : k = h <;> simp [bucketAppend, hk, ih]

/-- Every bucket of `acc` survives `bucketAppend` under its key, its old
members still inside. -/
theorem bucketAppend_persist {α : Type} (h : String) (d : α) :
    ∀ (acc : List (String × List α)) (k : String) (xs : List α),
      (k, xs) ∈ acc →
      ∃ ys, (k, ys) ∈ bucketAppend h d acc ∧ ∀ x ∈ xs, x ∈ ys := by
  intro acc
  induction acc with
  | nil =>
    intro k xs hk
    exact absurd hk (List.not_mem_nil _)
  | cons g rest ih =>
    rcases g with ⟨k0, xs0⟩
    intro k xs hk
    by_cases hk0 : k0 = h
    · rcases List.mem_cons.mp hk with he | hk
      · refine ⟨xs0 ++ [d], ?_, ?_⟩
        · rw [bucketAppend, if_pos hk0]
          have : k = k0 := congrArg Prod.fst he
          exact this ▸ List.mem_cons_self _ _
        · intro x hx
          have : xs = xs0 := congrArg Prod.snd he
          exact List.mem_append_left _ (this ▸ hx)
      · refine ⟨xs, ?_, fun x hx => hx⟩
        rw [bucketAppend, if_pos hk0]
        exact List.mem_cons_of_mem _ hk
    · rw [bucketAppend, if_neg hk0]
      rcases List.mem_cons.mp hk with he | hk
      · exact ⟨xs, he ▸ List.mem_cons_self _ _, fun x hx => hx⟩
      · rcases ih k xs hk with ⟨ys, hys, hsub⟩
        exact ⟨ys, List.mem_cons_of_mem _ hys, hsub⟩

/-- When the key `h` is present, `bucketAppend` puts `d` into the bucket
stored under `h`. -/
theorem bucketAppend_adds {α : Type} (h : String) (d : α) :
    ∀ acc : List (String × List α), h ∈ acc.map Prod.fst →
      ∃ ys, (h, ys) ∈ bucketAppend h d acc ∧ d ∈ ys := by
  intro acc
  induction acc with
  | nil =>
    intro hm
    simp at hm
  | cons g rest ih =>
    rcases g with ⟨k0, xs0⟩
    intro hm
    by_cases hk0 : k0 = h
    · refine ⟨xs0 ++ [d], ?_, List.mem_append_right _ (List.mem_cons_self _ _)⟩
      rw [bucketAppend, if_pos hk0]
      exact hk0 ▸ List.mem_cons_self _ _
    · rw [bucketAppend, if_neg hk0]
      have hm2 : h ∈ rest.map Prod.fst := by
        have hm3 : h = k0 ∨ ∃ x, (h, x) ∈ rest := by simpa using hm
        rcases hm3 with he | ⟨x, hx⟩
        · exact absurd he.symm hk0
        · exact List.mem_map.mpr ⟨(h, x), hx, rfl⟩
      rcases ih hm2 with ⟨ys, hys, hd⟩
      exact ⟨ys, List.mem_cons_of_mem _ hys, hd⟩

/-- Bucket homogeneity — every member's dump equals its bucket's key — is
preserved by `bucketAppend` when `d`'s dump is the targeted key. -/
theorem bucketAppend_homog {α : Type} (key : α → PyVal) (h : String) (d : α)
    (hd : jsonDumps (key d) = h) :
    ∀ acc : List (String × List α),
      (∀ g ∈ acc, ∀ y ∈ g.2, jsonDumps (key y) = g.1) →
      ∀ g ∈ bucketAppend h d acc, ∀ y ∈ g.2, jsonDumps (key y) = g.1 := by
  intro acc
  induction acc with
  | nil =>
    intro hh g hg
    simp [bucketAppend] at hg
  | cons g0 rest ih =>
    rcases g0 with ⟨k0, xs0⟩
    intro hh g hg y hy
    have hh0 := hh (k0, xs0) (List.mem_cons_self _ _)
    have hhr : ∀ g ∈ rest, ∀ y ∈ g.2, jsonDumps (key y) = g.1 :=
      fun g hg => hh g (List.mem_cons_of_mem _ hg)
    by_cases hk0 : k0 = h
    · rw [bucketAppend, if_pos hk0] at hg
      rcases List.mem_cons.mp hg with rfl | hg
      · rcases List.mem_append.mp hy with hy | hy
        · exact hh0 y hy
        · have : y = d := by simpa using hy
          rw [this, hd, hk0]
      · exact hhr g hg y hy
    · rw [bucketAppend, if_neg hk0] at hg
      rcases List.mem_cons.mp hg with rfl | hg
      · exact hh0 y hy
      · exact ih hhr g hg y hy

/-- Every bucket of the accumulator survives `_load_data` under its key,
with its old members still inside. -/
theorem groupLoadAux_persist {α : Type} (key : α → PyVal) :
    ∀ (l : List α) (acc : List (String × List α)) (k : String) (xs : List α),
      (k, xs) ∈ acc →
      ∃ ys, (k, ys) ∈ groupLoadAux key l acc ∧ ∀ x ∈ xs, x ∈ ys := by
  intro l
  induction l with
  | nil =>
    intro acc k xs hk
    exact ⟨xs, hk, fun x hx => hx⟩
  | cons d ds ih =>
    intro acc k xs hk
    by_cases hd : jsonDumps (key d) ∈ acc.map Prod.fst
    · rw [groupLoadAux, if_pos hd]
      rcases bucketAppend_persist (jsonDumps (key d)) d acc k xs hk with
        ⟨ys, hys, hsub⟩
      rcases ih _ k ys hys with ⟨zs, hzs, hsub2⟩
      exact ⟨zs, hzs, fun x hx => hsub2 x (hsub x hx)⟩
    · rw [groupLoadAux, if_neg hd]
      exact ih _ k xs (List.mem_append_left _ hk)

/-- Bucket homogeneity is an invariant of `_load_data`. -/
theorem groupLoadAux_homog {α : Type} (key : α → PyVal) :
    ∀ (l : List α) (acc : List (String × List α)),
      (∀ g ∈ acc, ∀ y ∈ g.2, jsonDumps (key y) = g.1) →
      ∀ g ∈ groupLoadAux key l acc, ∀ y ∈ g.2, jsonDumps (key y) = g.1 := by
  intro l
  induction l with
  | nil => intro acc hh; exact hh
  | cons d ds ih =>
    intro acc hh
    by_cases hd : jsonDumps (key d) ∈ acc.map Prod.fst
    · rw [groupLoadAux, if_pos hd]
      exact ih _ (bucketAppend_homog key _ d rfl acc hh)
    · rw [groupLoadAux, if_neg hd]
      refine ih _ ?_
      intro g hg y hy
      rcases List.mem_append.mp hg with hg | hg
      · exact hh g hg y hy
      · have : g = (jsonDumps (key d), [d]) := by simpa using hg
        subst this
        have : y = d := by simpa using hy
        rw [this]
    -- each new bucket is keyed by the dump of its founding element

/-- Distinctness of bucket keys is an invariant of `_load_data`: one bucket
per distinct key hash. -/
theorem groupLoadAux_keys_distinct {α : Type} (key : α → PyVal) :
    ∀ (l : List α) (acc : List (String × List α)),
      (acc.map Prod.fst).Pairwise (fun h1 h2 => h1 ≠ h2) →
      ((groupLoadAux key l acc).map Prod.fst).Pairwise
        (fun h1 h2 => h1 ≠ h2) := by
  intro l
  induction l with
  | nil => intro acc hp; exact hp
  | cons d ds ih =>
    intro acc hp
    by_cases hd : jsonDumps (key d) ∈ acc.map Prod.fst
    · rw [groupLoadAux, if_pos hd]
      exact ih _ (by rw [bucketAppend_keys]; exact hp)
    · rw [groupLoadAux, if_neg hd]
      refine ih _ ?_
      rw [List.map_append]
      refine List.pairwise_append.mpr ⟨hp, List.pairwise_singleton _ _, ?_⟩
      intro a ha b hb
      have : b = jsonDumps (key d) := by simpa using hb
      subst this
      exact fun he => hd (he ▸ ha)

/-- Every source element lands in the bucket keyed by its own dump. -/
theorem groupLoadAux_covers {α : Type} (key : α → PyVal) :
    ∀ (l : List α) (acc : List (String × List α)) (x : α), x ∈ l →
      ∃ g ∈ groupLoadAux key l acc,
        g.1 = jsonDumps (key x) ∧ x ∈ g.2 := by
  intro l
  induction l with
  | nil =>
    intro acc x hx
    exact absurd hx (List.not_mem_nil x)
  | cons d ds ih =>
    intro acc x hx
    rcases List.mem_cons.mp hx with rfl | hx
    · by_cases hd : jsonDumps (key x) ∈ acc.map Prod.fst
      · rw [groupLoadAux, if_pos hd]
        rcases bucketAppend_adds (jsonDumps (key x)) x acc hd with
          ⟨ys, hys, hin⟩
        rcases groupLoadAux_persist key ds _ _ ys hys with ⟨zs, hzs, hsub⟩
        exact ⟨(jsonDumps (key x), zs), hzs, rfl, hsub x hin⟩
      · rw [groupLoadAux, if_neg hd]
        rcases groupLoadAux_persist key ds _ (jsonDumps (key x)) [x]
          (List.mem_append_right _ (List.mem_cons_self _ _)) with
          ⟨zs, hzs, hsub⟩
        exact ⟨(jsonDumps (key x), zs), hzs, rfl,
          hsub x (List.mem_cons_self _ _)⟩
    · by_cases hd : jsonDumps (key d) ∈ acc.map Prod.fst
      · rw [groupLoadAux, if_pos hd]
        exact ih _ x hx
      · rw [groupLoadAux, if_neg hd]
        exact ih _ x hx

/-- `_load_data` keeps a subsequence of the input: first-seen representatives
in encounter order. -/
theorem unionLoadAux_sublist {α : Type} (key : α → PyVal) :
    ∀ (l : List α) (seen : List String),
      (unionLoadAux key l seen).Sublist l := by
  intro l
  induction l with
  | nil => intro seen; simp [unionLoadAux]
  | cons x xs ih =>
    intro seen
    by_cases hx : jsonDumps (key x) ∈ seen
    · rw [unionLoadAux, if_pos hx]
      exact (ih seen).cons x
    · rw [unionLoadAux, if_neg hx]
      exact (ih _).cons₂ x

/-- With a predicate that never fails, the skip loop of
`SkipWhileEnumerable.__iter__` keeps pulling the wrapping cycle forever: it
never exits, whatever the fuel. -/
theorem swSkipLoop_const_true (l : List Int) :
    ∀ (fuel : Nat) (e : Int) (pos i : Nat),
      swSkipLoop (fun _ => true) l fuel e pos i = none := by
  intro fuel
  induction fuel with
  | zero => intro e pos i; rfl
  | succ f ih => intro e pos i; simp [swSkipLoop, ih]

/-- With a predicate that never fails, the take loop of
`TakeWhileEnumerable.__iter__` keeps yielding off the wrapping cycle forever:
it never exits, whatever the fuel. -/
theorem twTakeLoop_const_true (l : List Int) :
    ∀ (fuel : Nat) (e : Int) (pos : Nat) (acc : List Int),
      twTakeLoop (fun _ => true) l fuel e pos acc = none := by
  intro fuel
  induction fuel with
  | zero => intro e pos acc; rfl
  | succ f ih => intro e pos acc; simp [twTakeLoop, ih]

/-! ## Claim theorems -/

/-- C1: the iteration protocol is claimed to give each traversal a fresh,
independent pass over the elements.  The code shares one `itertools.cycle`
cursor per node between all live traversals: over `Enumerable([1, 2])`, with
traversals A and B alternating pulls (schedule A,B,A,B), A observes `[1, 1]`
and B observes `[2, 2]`, although a lone traversal of the same node observes
`[1, 2]`.  This evaluates the code at the failing input of the claim's
interference clause. -/
theorem iter_shared_cursor_interference :
    (interleavedRun [1, 2] [true, false, true, false]).1 = [1, 1] ∧
    (interleavedRun [1, 2] [true, false, true, false]).2.1 = [2, 2] ∧
    iterSeq [1, 2] 0 2 = [1, 2] := by
  decide

/-- C2: `take_while`/`skip_while` against the claim.  On `[1, 2, 3]`:
with a predicate that fails on the first element, `skip_while` yields only
`[1, 2]` — it drops the last element instead of yielding the whole sequence
(the counter `i` starts at 1 although nothing was skipped); and with a
predicate that holds for every element, both `skip_while` (claimed: empty) and
`take_while` (claimed: the whole sequence) loop forever on the wrapping cycle
— no amount of fuel completes them.  The last two conjuncts record that the
code is right when the predicate does fail at some position `k ≥ 1`. -/
theorem skipWhile_takeWhile_at_failing_inputs :
    skipWhileE (fun _ => false) [1, 2, 3] 9 = some [1, 2] ∧
    (∀ fuel, skipWhileE (fun _ => true) [1, 2, 3] fuel = none) ∧
    (∀ fuel, takeWhileE (fun _ => true) [1, 2, 3] fuel = none) ∧
    takeWhileE (fun x => decide (x ≤ 1)) [1, 2, 3] 9 = some [1] ∧
    skipWhileE (fun x => decide (x ≤ 1)) [1, 2, 3] 9 = some [2, 3] := by
  refine ⟨by decide, ?_, ?_, by decide, by decide⟩
  · intro fuel
    simp [skipWhileE, swSkipLoop_const_true]
  · intro fuel
    simp [takeWhileE, twTakeLoop_const_true]

/-- C3: `group_join` does emit one row per outer element, but the Grouping's
contents depend on WHEN the caller consumes them, contrary to the claim's
"no matter when" clause: with `outer = [1, 2]`, `inner = [1, 2]` and identity
keys, a caller that materializes the rows first and then reads the Groupings
finds `[2]` — the matches of the LAST outer key — in the row for outer
element 1, because the `where` predicate closes over the generator's shared
`ok` variable; consuming each Grouping immediately gives the claimed `[1]`. -/
theorem group_join_late_bound_key :
    groupJoinConsumeDeferred [1, 2] [1, 2] (fun x => x) (fun x => x) =
      [(1, [2]), (2, [2])] ∧
    (groupJoinConsumeDeferred [1, 2] [1, 2] (fun x => x) (fun x => x)).length
      = 2 ∧
    groupJoinConsumeEager [1, 2] [1, 2] (fun x => x) (fun x => x) =
      [(1, [1]), (2, [2])] := by
  decide

/-- C8: `reverse()` is broken on skip/take nodes.  For
`Enumerable([1,2,3,4,5]).skip(2)` — which yields `[3, 4, 5]` — the `reversed`
sequence protocol uses the inherited `__len__` (= 5, the upstream count) and
`__getitem__` (which returns `None` at indices 3 and 4), so `reverse()` yields
`[None, None, 5]` instead of the claimed `[5, 4, 3]`.  The round trip
`reverse().reverse()` yields `[None, None, None]` instead of `[3, 4, 5]`: the
inner reverse cycles `[None, None, 5, 4, 3]` but yields 3 elements per pass,
so the outer node's per-pull `len(self)` pass and each protocol `__getitem__`
pass each drift the inner cursor by 3 of 5, and every `r[k]` lands on `None`.
On a base sequence both behave as claimed (last two conjuncts; there each
pass is a whole cycle, so the cursor realigns). -/
theorem reverse_of_skip_node_broken :
    nodeIter (SNode.revN (SNode.skipN 2
        (SNode.base [some 1, some 2, some 3, some 4, some 5]))) =
      [none, none, some 5] ∧
    nodeIter (SNode.revN (SNode.revN (SNode.skipN 2
        (SNode.base [some 1, some 2, some 3, some 4, some 5])))) =
      [none, none, none] ∧
    nodeIter (SNode.revN (SNode.base [some 1, some 2, some 3])) =
      [some 3, some 2, some 1] ∧
    nodeIter (SNode.revN (SNode.revN (SNode.base [some 1, some 2, some 3]))) =
      [some 1, some 2, some 3] := by
  decide

/-- C4 counterexample: the code's key criterion — byte-identity of the
serialized form `json.dumps` of the projected key (under an injective string
hash) — is not equivalent to structural key equality, refuting the claim's
"iff" at the concrete keys `(1, 2)` and `[1, 2]`: their serializations are
byte-identical although they are structurally distinct, so `union` over
`[(1, 2), [1, 2]]` conflates them and keeps only the tuple; conversely `True`
and `1` are structurally equal but serialize differently. -/
theorem union_key_criterion_not_structural :
    jsonDumps (PyVal.tupV [PyScalar.intV 1, PyScalar.intV 2]) =
      jsonDumps (PyVal.listV [PyScalar.intV 1, PyScalar.intV 2]) ∧
    pyEq (PyVal.tupV [PyScalar.intV 1, PyScalar.intV 2])
      (PyVal.listV [PyScalar.intV 1, PyScalar.intV 2]) = false ∧
    unionLoad (fun v => v)
      [PyVal.tupV [PyScalar.intV 1, PyScalar.intV 2],
       PyVal.listV [PyScalar.intV 1, PyScalar.intV 2]] =
      [PyVal.tupV [PyScalar.intV 1, PyScalar.intV 2]] ∧
    pyEq (PyVal.scalar (PyScalar.boolV true))
      (PyVal.scalar (PyScalar.intV 1)) = true ∧
    jsonDumps (PyVal.scalar (PyScalar.boolV true)) ≠
      jsonDumps (PyVal.scalar (PyScalar.intV 1)) := by
  refine ⟨rfl, rfl, ?_, rfl, ?_⟩ <;> decide

/-- C4 amended: `union` and `group_by` — which key by the identical
expression `hash(json.dumps(key))` — treat two elements as having the same
key iff the canonical JSON serializations of their projected keys are
byte-identical (an injective string hash assumed).  This is NOT structural
equality of the keys: structurally distinct keys with identical
serializations (a tuple and a list with equal items) are conflated, and
structurally equal ones with different serializations (`True` vs `1`) are
separated.  For `union`, stated over position-tagged elements: the output has
pairwise distinct serialized keys, is a subsequence of `self ++ other`, and
the serialized key of every input element is represented by a kept element at
a position no later than the element's own — together these pin the output as
exactly the first-seen representative of each distinct serialized key, in
encounter order (a kept element shares its dump with itself, so its tag is
minimal among elements with that dump); the fourth conjunct identifies the
untagged run the code produces with the tagged run.  For `group_by`: every
element lands in the bucket keyed by its own dump, buckets are
dump-homogeneous, there is exactly one bucket per distinct dump, and two
source elements share a bucket iff their serialized keys are byte-identical. -/
theorem union_groupby_serialized_key_semantics {α : Type} (key : α → PyVal)
    (l : List α) (p : Nat × α) (hp : p ∈ l.enum) (a b : α)
    (ha : a ∈ l) (hb : b ∈ l) :
    (unionLoad (fun r : Nat × α => key r.2) l.enum).Pairwise
      (fun q1 q2 => jsonDumps (key q1.2) ≠ jsonDumps (key q2.2)) ∧
    (unionLoad (fun r : Nat × α => key r.2) l.enum).Sublist l.enum ∧
    (∃ q ∈ unionLoad (fun r : Nat × α => key r.2) l.enum,
      jsonDumps (key q.2) = jsonDumps (key p.2) ∧ q.1 ≤ p.1) ∧
    (unionLoad (fun r : Nat × α => key r.2) l.enum).map Prod.snd =
      unionLoad key l ∧
    (∃ g ∈ groupLoad key l, g.1 = jsonDumps (key a) ∧ a ∈ g.2) ∧
    (∀ g ∈ groupLoad key l, ∀ y ∈ g.2, jsonDumps (key y) = g.1) ∧
    ((groupLoad key l).map Prod.fst).Pairwise (fun h1 h2 => h1 ≠ h2) ∧
    ((∃ g ∈ groupLoad key l, a ∈ g.2 ∧ b ∈ g.2) ↔
      jsonDumps (key a) = jsonDumps (key b)) := by
  have hhomog : ∀ g ∈ groupLoad key l, ∀ y ∈ g.2, jsonDumps (key y) = g.1 :=
    groupLoadAux_homog key l []
      (fun g hg => absurd hg (List.not_mem_nil g))
  have hdist : ((groupLoad key l).map Prod.fst).Pairwise
      (fun h1 h2 => h1 ≠ h2) :=
    groupLoadAux_keys_distinct key l [] (by simp)
  refine ⟨unionLoadAux_pairwise _ l.enum [], unionLoadAux_sublist _ l.enum [],
    ?_, ?_, groupLoadAux_covers key l [] a ha, hhomog, hdist, ?_, ?_⟩
  · rcases unionLoadAux_covers_first key l.enum [] (pairwise_enum_idxLt l)
      p hp with hseen | h
    · exact absurd hseen (List.not_mem_nil _)
    · exact h
  · show (unionLoadAux (fun r : Nat × α => key r.2) l.enum []).map Prod.snd =
      unionLoad key l
    rw [unionLoadAux_map_snd, List.enum_map_snd]
    rfl
  · rintro ⟨g, hg, hag, hbg⟩
    exact (hhomog g hg a hag).trans (hhomog g hg b hbg).symm
  · intro hdump
    rcases groupLoadAux_covers key l [] a ha with ⟨ga, hga, hka, hain⟩
    rcases groupLoadAux_covers key l [] b hb with ⟨gb, hgb, hkb, hbin⟩
    have hpe : (groupLoad key l).Pairwise (fun g g2 => g.1 ≠ g2.1) := by
      have := (List.pairwise_map (l := groupLoad key l)).mp hdist
      exact this
    have hgagb : ga = gb := by
      by_contra hne
      exact hpe.forall (fun g1 g2 hne2 => fun he => hne2 he.symm) hga hgb hne
        (hka.trans (hdump.trans hkb.symm))
    exact ⟨ga, hga, hain, hgagb ▸ hbin⟩

/-- C4 witness: the amended theorem applied to the tuple key `(1, 2)` and the
list key `[1, 2]` — serialized identically, hence merged by `union` and put
into one `group_by` bucket. -/
theorem union_groupby_serialized_key_semantics_witness :
    (∃ q ∈ unionLoad (fun r : Nat × PyVal => r.2)
        ([PyVal.tupV [PyScalar.intV 1, PyScalar.intV 2],
          PyVal.listV [PyScalar.intV 1, PyScalar.intV 2]] : List PyVal).enum,
      jsonDumps q.2 =
        jsonDumps (PyVal.listV [PyScalar.intV 1, PyScalar.intV 2]) ∧
      q.1 ≤ 1) ∧
    ((∃ g ∈ groupLoad (fun v => v)
        [PyVal.tupV [PyScalar.intV 1, PyScalar.intV 2],
         PyVal.listV [PyScalar.intV 1, PyScalar.intV 2]],
      PyVal.tupV [PyScalar.intV 1, PyScalar.intV 2] ∈ g.2 ∧
      PyVal.listV [PyScalar.intV 1, PyScalar.intV 2] ∈ g.2) ↔
      jsonDumps (PyVal.tupV [PyScalar.intV 1, PyScalar.intV 2]) =
        jsonDumps (PyVal.listV [PyScalar.intV 1, PyScalar.intV 2])) := by
  have h := union_groupby_serialized_key_semantics (fun v => v)
    [PyVal.tupV [PyScalar.intV 1, PyScalar.intV 2],
     PyVal.listV [PyScalar.intV 1, PyScalar.intV 2]]
    (1, PyVal.listV [PyScalar.intV 1, PyScalar.intV 2]) (by decide)
    (PyVal.tupV [PyScalar.intV 1, PyScalar.intV 2])
    (PyVal.listV [PyScalar.intV 1, PyScalar.intV 2]) (by decide) (by decide)
  exact ⟨h.2.2.1, h.2.2.2.2.2.2.2⟩

/-- C5: `then_by` mutates its receiver's operator state: the `append` grows
the receiver's `_key_funcs`, observably — after `s = order_by(fst)` over
`[(0,1,0), (0,0,1)]` and a first call `s.then_by(mid)`, the receiver's key
list has length 2 (not 1), and a second call `s.then_by(last)` sorts by
`[fst, mid, last]` yielding `[(0,0,1), (0,1,0)]`, where an unmutated receiver
(the claim) would sort by `[fst, last]` yielding `[(0,1,0), (0,0,1)]`. -/
theorem then_by_mutates_receiver :
    (thenByS (orderByS (fun v : Int × Int × Int => v.1)
        [(0, 1, 0), (0, 0, 1)]) (fun v => v.2.1)).2.keyFuncs.length = 2 ∧
    (orderByS (fun v : Int × Int × Int => v.1)
        [(0, 1, 0), (0, 0, 1)]).keyFuncs.length = 1 ∧
    (thenByS (thenByS (orderByS (fun v : Int × Int × Int => v.1)
        [(0, 1, 0), (0, 0, 1)]) (fun v => v.2.1)).2 (fun v => v.2.2)).1.data =
      [(0, 0, 1), (0, 1, 0)] ∧
    (thenByS (orderByS (fun v : Int × Int × Int => v.1)
        [(0, 1, 0), (0, 0, 1)]) (fun v => v.2.2)).1.data =
      [(0, 1, 0), (0, 0, 1)] := by
  refine ⟨rfl, rfl, ?_, ?_⟩ <;> decide

/-- C6: the evaluated `order_by(d0)` + `then_by(...)` chain (each extension
re-sorting the receiver's data by the grown key list, as the code does) is a
permutation of the input, ordered lexicographically by the directive chain —
the primary directive decides first, ties fall to each subsequent directive in
chain order, and elements tied under all directives keep their original
relative input order.  Stability is stated over position-tagged elements
(`l.enum`, directives lifted tag-blind): the output is pairwise-ordered under
the chain's lexicographic order with the strictly-smaller original position as
the final tie-break, a total order that pins the output uniquely.  The first
conjunct identifies the untagged run the code produces with the tagged run.
With `ds = []` this contains the claim's special case: `order_by(k)` is
non-decreasing in `k`. -/
theorem order_by_then_by_chain_sorted_stable {α : Type} (d0 : Dir α)
    (ds : List (Dir α)) (l : List α) :
    chainSort d0 ds l =
      (chainSort (liftDir d0) (ds.map liftDir) l.enum).map Prod.snd ∧
    (chainSort (liftDir d0) (ds.map liftDir) l.enum).Perm l.enum ∧
    (chainSort (liftDir d0) (ds.map liftDir) l.enum).Pairwise
      (lexRel (liftDir d0 :: ds.map liftDir) idxLt) := by
  refine ⟨?_, ?_, ?_⟩
  · have h := chainGo_map_snd ds [d0] (multiSort ([d0].map liftDir) l.enum)
    unfold chainSort
    rw [show ([liftDir d0] : List (Dir (Nat × α))) = [d0].map liftDir from rfl]
    rw [h, multiSort_map_snd, List.enum_map_snd]
  · exact (chainGo_perm _ _ _).trans (perm_multiSort _ _)
  · have h1 := pairwise_multiSort [liftDir d0] idxLt l.enum
      (pairwise_enum_idxLt l)
    have h2 := chainGo_pairwise (ds.map liftDir) [liftDir d0] _ h1
    simpa using h2

/-- C9: `median` on a non-empty sequence: for ANY non-decreasing arrangement
`s` of the projected values, the odd-length result is the central element of
`s` kept in its native integer type, and the even-length result is the mean of
the two central elements of `s` as a float.  (The sorted permutation is
unique, so this pins the code's behavior to the claim's description.) -/
theorem median_central_element {α : Type} (f : α → Int) (l : List α)
    (s : List Int) (hne : l ≠ []) (hperm : s.Perm (l.map f))
    (hsort : s.Pairwise (fun a b : Int => a ≤ b)) :
    medianE f l =
      (if l.length % 2 = 1 then
        Except.ok (MedianResult.intVal (s.getD (l.length / 2) 0))
      else
        Except.ok (MedianResult.floatVal
          ((((s.getD (l.length / 2 - 1) 0 : Int) : ℚ) +
            ((s.getD (l.length / 2) 0 : Int) : ℚ)) / 2))) := by
  have hs0perm : ((multiSort [Dir.mk f false] l).map f).Perm (l.map f) :=
    (perm_multiSort _ _).map f
  have hs0sorted : ((multiSort [Dir.mk f false] l).map f).Pairwise
      (fun a b : Int => a ≤ b) := by
    have htriv : l.Pairwise (fun _ _ => True) :=
      List.pairwise_iff_getElem.mpr (fun i j hi hj hij => trivial)
    have h1 := pairwise_multiSort [Dir.mk f false] (fun _ _ => True) l htriv
    have h2 : (multiSort [Dir.mk f false] l).Pairwise
        (fun a b => f a ≤ f b) := by
      refine h1.imp ?_
      intro a b hab
      have hle : dirLeB (Dir.mk f false) a b = true := by
        rcases hab with ⟨h3, _⟩ | ⟨h3, _⟩ <;> exact h3
      simpa [dirLeB] using hle
    exact List.pairwise_map.mpr h2
  have hseq : (multiSort [Dir.mk f false] l).map f = s :=
    List.eq_of_perm_of_sorted (hs0perm.trans hperm.symm) hs0sorted hsort
  have hslen : ((multiSort [Dir.mk f false] l).map f).length = l.length := by
    rw [List.length_map, (perm_multiSort _ _).length_eq]
  rw [hseq] at hslen
  unfold medianE
  rw [if_neg (by simpa [List.isEmpty_iff] using hne)]
  simp only [hseq, hslen]

/-- C9 witness: the theorem applied at the claim's two concrete sequences,
with the sorted projections supplied explicitly. -/
theorem median_central_element_witness :
    medianE (fun x => x) [5, 3, 1, 4, 1] = Except.ok (MedianResult.intVal 3) ∧
    medianE (fun x => x) [5, 3, 1, 4] =
      Except.ok (MedianResult.floatVal (7 / 2)) := by
  constructor
  · have h := median_central_element (fun x => x) [5, 3, 1, 4, 1]
      [1, 1, 3, 4, 5] (by decide) (by decide) (by decide)
    rw [h]
    norm_num
  · have h := median_central_element (fun x => x) [5, 3, 1, 4]
      [1, 3, 4, 5] (by decide) (by decide) (by decide)
    rw [h]
    norm_num

/-- C7: `aggregate` with no seed uses the first element as the initial
accumulator and folds over the remaining elements in order; but on an empty
sequence it propagates the `IndexError` raised by `self.first()`
(via `element_at(0)`), not the `NoElementsError` kind that `min`/`max`/`avg`/
`median` raise on empty input — contradicting both the claim and `first`'s own
docstring. -/
theorem aggregate_no_seed_behavior (f : PyV → PyV → PyV) (x : Int)
    (xs : List PyV) :
    aggregateE f none (some x :: xs) = Except.ok (xs.foldl f (some x)) ∧
    aggregateE f none [] = Except.error PyError.indexError ∧
    minE [] = Except.error PyError.noElementsError := by
  refine ⟨?_, rfl, rfl⟩
  simp [aggregateE, firstE, elementAtE, getitemE]

/-- C10: the absent sentinel `None` is conflated with absence.  If the element
at a valid position `n` is `None`, `element_at(n)` raises `IndexError`; on a
sequence whose first element is `None`, `first_or_default()` returns `None`
and `any()` returns `False` although the sequence is non-empty. -/
theorem none_element_conflated_with_absence (l : List PyV) (n : Nat)
    (h : l.get? n = some none) (l2 : List PyV) (h2 : l2.head? = some none) :
    elementAtE l n = Except.error PyError.indexError ∧
    firstOrDefaultE l2 = Except.ok none ∧
    anyE l2 = false := by
  have hlen : n < l.length := List.get?_eq_some.mp h |>.choose
  have hget : l[n]? = some none := by
    rw [← List.get?_eq_getElem?]
    exact h
  obtain ⟨t, rfl⟩ : ∃ t, l2 = none :: t := by
    cases l2 with
    | nil => simp at h2
    | cons a t =>
      simp only [List.head?_cons, Option.some.injEq] at h2
      exact ⟨t, by rw [h2]⟩
  constructor
  · simp [elementAtE, getitemE, Nat.ne_of_gt (Nat.lt_of_le_of_lt (Nat.zero_le n) hlen), hget]
  · constructor
    · rfl
    · rfl

/-- C10 witness: the theorem applied to the concrete sequence
`Enumerable([None, 1])` at position 0. -/
theorem none_element_conflated_witness :
    elementAtE [none, some 1] 0 = Except.error PyError.indexError ∧
    firstOrDefaultE [none, some 1] = Except.ok none ∧
    anyE [none, some 1] = false :=
  none_element_conflated_with_absence [none, some 1] 0 rfl [none, some 1] rfl

end PyLinq
